import Mathlib

/-!
Formal model of the MiniRAG retrieval engine (`rag_engine.py`).

The engine keeps a SQLite store of chunk records plus a per-file digest
ledger, reconciles it against a folder of documents, loads an in-memory
index, and answers cosine-similarity queries with a result cache.

Modelling conventions:
* Python strings are Lean `String`s; `str.split()` and `str.strip()` are
  modelled character-exactly on `String.data`.
* float32 vectors are exact rationals (`List ℚ`); the similarity math,
  which involves square roots, lives in `ℝ`.
* SQLite is a `Store` (documents table in insertion order, `files_meta`
  association list).  The connection's uncommitted transaction is modelled
  by a `Conn` holding the durable store and the pending store; `commit`
  publishes pending to durable, and a Python exception discards the
  pending part (rollback), surfacing the durable store in `Except.error`.
* The SHA-1 / MD5 digests are only ever compared for equality, so they are
  modelled as an injective digest, the identity on the hashed text.
* The embedding oracle is a parameter `String → Option (List ℚ)`; `none`
  models `model.encode` raising.
-/

namespace MiniRAG

/-- Accumulator for Python `str.split()` (split on whitespace runs,
dropping empty pieces): `cur` is the word being accumulated. -/
def splitAux : List Char → List Char → List (List Char)
  | [], cur => if cur = [] then [] else [cur]
  | c :: rest, cur =>
    if c.isWhitespace then
      if cur = [] then splitAux rest [] else cur :: splitAux rest []
    else splitAux rest (cur ++ [c])

/-- Python `text.split()` at the character level. -/
def pyWordsChars (l : List Char) : List (List Char) := splitAux l []

/-- Python `text.split()`: the whitespace-separated words of a string. -/
def pyWords (s : String) : List String := (pyWordsChars s.data).map String.mk

/-- Grouping of the word list into windows of `W` words
(`words[i:i+chunk_size]` for `i in range(0, len(words), chunk_size)`),
written with a structural accumulator: `n` is the remaining capacity of
the current window `cur`. -/
def chunkGroupsAux (W : Nat) : List String → Nat → List String → List (List String)
  | [], _, cur => if cur = [] then [] else [cur]
  | w :: ws, 0, cur => cur :: chunkGroupsAux W ws (W - 1) [w]
  | w :: ws, n + 1, cur => chunkGroupsAux W ws n (cur ++ [w])

/-- The word windows of size `W` of a word list. -/
def chunkGroups (W : Nat) (ws : List String) : List (List String) :=
  chunkGroupsAux W ws W []

/-- Reference form of the grouping, by `take`/`drop`; used for proofs and
shown equal to `chunkGroups` for `W ≥ 1`. -/
def cleanGroups (W : Nat) (ws : List String) : List (List String) :=
  if h : ws = [] ∨ W = 0 then [] else ws.take W :: cleanGroups W (ws.drop W)
termination_by ws.length
decreasing_by
  push_neg at h
  simp only [List.length_drop]
  have hpos : 0 < ws.length := List.length_pos.mpr h.1
  omega

/-- Python `" ".join(ws)`. -/
def joinSp : List String → String
  | [] => ""
  | [w] => w
  | w :: ws => w ++ " " ++ joinSp ws

/-- `CHUNK_SIZE = 150  # words per chunk`. -/
def CHUNK_SIZE : Nat := 150

/-- `MiniRAG._chunk_text`: split on whitespace, regroup into windows of
`chunk_size` words, join each window with single spaces. -/
def _chunk_text (text : String) (chunk_size : Nat := CHUNK_SIZE) : List String :=
  (chunkGroups chunk_size (pyWords text)).map joinSp

/-- Python `str.strip()` (default, i.e. whitespace). -/
def pyStrip (s : String) : String :=
  String.mk (((s.data.dropWhile Char.isWhitespace).reverse.dropWhile Char.isWhitespace).reverse)

/-- `hashlib.sha1(text.encode()).hexdigest()`, modelled as an injective
digest (the identity): the engine only ever compares digests for
equality. -/
def _sha1 (text : String) : String := text

/-- `MiniRAG._hash` (`hashlib.md5` hex digest of the query text), same
injective-digest modelling. -/
def _hash (text : String) : String := text

/-- One row of the `documents` table. -/
structure ChunkRecord where
  source : String
  chunk : String
  embedding : List ℚ
  chunk_hash : String
deriving DecidableEq

/-- The durable database contents: `documents` rows in insertion (rowid)
order and the `files_meta` ledger. -/
structure Store where
  documents : List ChunkRecord
  filesMeta : List (String × String)
deriving DecidableEq

/-- A SQLite connection: the committed (durable) store and the store as
seen by the cursor including the open transaction. -/
structure Conn where
  durable : Store
  pending : Store
deriving DecidableEq

/-- `conn.commit()`. -/
def commit (c : Conn) : Conn := ⟨c.pending, c.pending⟩

/-- `SELECT sha1 FROM files_meta WHERE file = f` (first match). -/
def metaLookup : List (String × String) → String → Option String
  | [], _ => none
  | p :: m, f => if p.1 = f then some p.2 else metaLookup m f

/-- `INSERT OR REPLACE INTO files_meta`: drop conflicting rows, append. -/
def metaUpsert (m : List (String × String)) (f v : String) : List (String × String) :=
  m.filter (fun p => p.1 ≠ f) ++ [(f, v)]

/-- `UPDATE files_meta SET sha1 = v WHERE file = f`. -/
def metaUpdate (m : List (String × String)) (f v : String) : List (String × String) :=
  m.map (fun p => if p.1 = f then (p.1, v) else p)

/-- `DELETE FROM files_meta WHERE file = f`. -/
def metaDelete (m : List (String × String)) (f : String) : List (String × String) :=
  m.filter (fun p => p.1 ≠ f)

/-- `INSERT INTO documents ...` (append, rowid order). -/
def insertDoc (st : Store) (r : ChunkRecord) : Store :=
  { st with documents := st.documents ++ [r] }

/-- `DELETE FROM documents WHERE source = src`. -/
def deleteDocs (st : Store) (src : String) : Store :=
  { st with documents := st.documents.filter (fun r => r.source ≠ src) }

/-- The rows of the `documents` table belonging to one source file. -/
def docsFor (st : Store) (src : String) : List ChunkRecord :=
  st.documents.filter (fun r => r.source = src)

/-- Cursor operations act on the pending (uncommitted) store. -/
def pendingInsert (c : Conn) (r : ChunkRecord) : Conn :=
  { c with pending := insertDoc c.pending r }

def pendingDeleteDocs (c : Conn) (src : String) : Conn :=
  { c with pending := deleteDocs c.pending src }

def pendingMetaUpsert (c : Conn) (f v : String) : Conn :=
  { c with pending := { c.pending with filesMeta := metaUpsert c.pending.filesMeta f v } }

def pendingMetaUpdate (c : Conn) (f v : String) : Conn :=
  { c with pending := { c.pending with filesMeta := metaUpdate c.pending.filesMeta f v } }

/-- The chunk loop of `MiniRAG._index_file`: strip each chunk, skip empty
ones, embed via the oracle (failure raises, discarding the open
transaction and surfacing the durable store), insert the row; a final
`conn.commit()` after the loop. -/
def _index_file_go (o : String → Option (List ℚ)) (filename : String) :
    List String → Conn → Except Store Conn
  | [], c => .ok (commit c)
  | ch :: rest, c =>
    let t := pyStrip ch
    if t = "" then _index_file_go o filename rest c
    else
      match o t with
      | none => .error c.durable
      | some emb => _index_file_go o filename rest (pendingInsert c ⟨filename, t, emb, _sha1 t⟩)

/-- `MiniRAG._index_file` applied to the file's text. -/
def _index_file (o : String → Option (List ℚ)) (filename text : String) (c : Conn) :
    Except Store Conn :=
  _index_file_go o filename (_chunk_text text) c

/-- One iteration of the add-new-or-updated loop of
`MiniRAG._sync_index_with_files` for a present file: new files are
indexed then their ledger row upserted and committed; changed files have
their rows deleted and committed first, are re-indexed, then their ledger
row updated and committed; unchanged files are skipped. -/
def processFile (o : String → Option (List ℚ)) (stored : List (String × String))
    (fname content : String) (c : Conn) : Except Store Conn :=
  let sha := _sha1 content
  match metaLookup stored fname with
  | none =>
    match _index_file o fname content c with
    | .error d => .error d
    | .ok c1 => .ok (commit (pendingMetaUpsert c1 fname sha))
  | some old =>
    if old = sha then .ok c
    else
      let c1 := commit (pendingDeleteDocs c fname)
      match _index_file o fname content c1 with
      | .error d => .error d
      | .ok c2 => .ok (commit (pendingMetaUpdate c2 fname sha))

/-- The add-new-or-updated loop over the folder's files, consulting the
`files_meta` snapshot `stored` loaded before the loop. -/
def loopFiles (o : String → Option (List ℚ)) (stored : List (String × String)) :
    List (String × String) → Conn → Except Store Conn
  | [], c => .ok c
  | (fname, content) :: rest, c =>
    match processFile o stored fname content c with
    | .error d => .error d
    | .ok c1 => loopFiles o stored rest c1

/-- Removal of one vanished file: delete its document rows and its ledger
row (committed). -/
def removeFile (st : Store) (f : String) : Store :=
  { documents := st.documents.filter (fun r => r.source ≠ f),
    filesMeta := metaDelete st.filesMeta f }

/-- The delete-removed loop. -/
def removeAll : List String → Store → Store
  | [], st => st
  | f :: fs, st => removeAll fs (removeFile st f)

/-- `MiniRAG._sync_index_with_files` on a folder listing of
`(filename, contents)` pairs: run the add/update loop against the ledger
snapshot, then delete entries of files no longer present.  On success the
final durable store is returned; on an oracle failure the durable store
at the failure point is returned. -/
def _sync_index_with_files (o : String → Option (List ℚ))
    (folder : List (String × String)) (st : Store) : Except Store Store :=
  let stored := st.filesMeta
  match loopFiles o stored folder ⟨st, st⟩ with
  | .error d => .error d
  | .ok c =>
    let removed := (stored.map Prod.fst).filter (fun g => g ∉ folder.map Prod.fst)
    .ok (removeAll removed c.durable)

/-- The in-memory index: parallel chunk texts, source labels, embedding
rows, plus the column count of the embedding matrix (`.shape[1]`). -/
structure Mem where
  chunks : List String
  sources : List String
  embeddings : List (List ℚ)
  embCols : Nat
deriving DecidableEq

/-- The in-memory stores as initialised in `MiniRAG.__init__`:
empty lists and `np.zeros((0, dim))`. -/
def initMem (dim : Nat) : Mem := ⟨[], [], [], dim⟩

/-- `MiniRAG._load_from_db`: one full scan of `documents`; a zero-row
store yields `np.zeros((0, dim))`, otherwise `np.vstack` of the rows. -/
def _load_from_db (docs : List ChunkRecord) (dim : Nat) : Mem :=
  let chunks := docs.map ChunkRecord.chunk
  let sources := docs.map ChunkRecord.source
  let embList := docs.map ChunkRecord.embedding
  if embList = [] then ⟨chunks, sources, [], dim⟩
  else ⟨chunks, sources, embList, (embList.headD []).length⟩

/-- The `1e-12` guard added to the query-vector norm. -/
noncomputable def eps : ℝ := 1 / 10 ^ 12

/-- Sum of squares of a vector's entries. -/
def sumSq (v : List ℚ) : ℚ := (v.map (fun x => x * x)).sum

/-- `np.linalg.norm v`, in `ℝ`. -/
noncomputable def normR (v : List ℚ) : ℝ := Real.sqrt ((sumSq v : ℚ) : ℝ)

/-- `np.dot` of two vectors. -/
def dotQ (a b : List ℚ) : ℚ := (List.zipWith (· * ·) a b).sum

/-- The per-row denominator `np.linalg.norm(e) * (np.linalg.norm(q) + 1e-12)`. -/
noncomputable def denomR (e q : List ℚ) : ℝ := normR e * (normR q + eps)

/-- One cosine-similarity score `np.dot(e, q) / denom`. -/
noncomputable def simScore (e q : List ℚ) : ℝ := ((dotQ e q : ℚ) : ℝ) / denomR e q

/-- The score vector `sims` over all embedding rows. -/
noncomputable def simsOf (emb : List (List ℚ)) (q : List ℚ) : List ℝ :=
  emb.map (fun e => simScore e q)

/-- `sims.argsort()`: the indices `0, ..., n-1` sorted by ascending
score. -/
noncomputable def argsortAsc (s : List ℝ) : List Nat :=
  List.insertionSort (fun i j => s.getD i 0 ≤ s.getD j 0) (List.range s.length)

/-- Python slice `l[i:]` for an arbitrary integer start. -/
def pySliceFrom {α : Type} (l : List α) (i : ℤ) : List α :=
  if i < 0 then l.drop (l.length - (-i).toNat) else l.drop i.toNat

/-- `sims.argsort()[-k:][::-1]`. -/
noncomputable def topIdxs (s : List ℝ) (k : ℤ) : List Nat :=
  (pySliceFrom (argsortAsc s) (-k)).reverse

/-- One element of a query result list. -/
structure QResult where
  chunk : String
  source : String
  score : ℝ

/-- The mutable state `MiniRAG.query` can see: the database, the
in-memory index and the query cache (an insertion-ordered dict keyed by
the query digest). -/
structure RagState where
  store : Store
  mem : Mem
  cache : List (String × List QResult)

/-- The outcome of one `query` call: the returned list, the state after
the call, and how many times the embedding oracle was invoked. -/
structure QueryOut where
  results : List QResult
  state : RagState
  oracleCalls : Nat

/-- Query-cache dict lookup. -/
def cacheLookup : List (String × List QResult) → String → Option (List QResult)
  | [], _ => none
  | p :: m, h => if p.1 = h then some p.2 else cacheLookup m h

/-- `MiniRAG.query`: cache probe, empty-index early return, embed the
question, score every stored vector, pick `argsort()[-k:][::-1]`,
assemble results, store them in the cache.  `none` models the oracle
raising on the cache-miss path. -/
noncomputable def query (o : String → Option (List ℚ)) (st : RagState)
    (question : String) (k : ℤ) : Option QueryOut :=
  let q_hash := _hash question
  match cacheLookup st.cache q_hash with
  | some r => some ⟨r, st, 0⟩
  | none =>
    if st.mem.chunks.length = 0 then some ⟨[], st, 0⟩
    else
      match o question with
      | none => none
      | some q_emb =>
        let sims := simsOf st.mem.embeddings q_emb
        let idxs := topIdxs sims k
        let results := idxs.map (fun idx =>
          ⟨st.mem.chunks.getD idx "", st.mem.sources.getD idx "", sims.getD idx 0⟩)
        some ⟨results, { st with cache := st.cache ++ [(q_hash, results)] }, 1⟩

/-- `MiniRAG.clear_query_cache`. -/
def clear_query_cache (st : RagState) : RagState := { st with cache := [] }

end MiniRAG

namespace MiniRAG

/-! ### Chunker lemmas -/

theorem splitAux_append_nonws (t : List Char) :
    ∀ (l cur : List Char), (∀ c ∈ t, c.isWhitespace = false) →
      splitAux (t ++ l) cur = splitAux l (cur ++ t) := by
  induction t with
  | nil => intro l cur _; simp
  | cons c t ih =>
    intro l cur h
    have hc : c.isWhitespace = false := h c (by simp)
    have hstep : splitAux ((c :: t) ++ l) cur = splitAux (t ++ l) (cur ++ [c]) := by
      simp [splitAux, hc]
    rw [hstep, ih l (cur ++ [c]) (fun d hd => h d (by simp [hd]))]
    simp

theorem splitAux_nil_of_ws (l : List Char) (h : ∀ c ∈ l, c.isWhitespace = true) :
    splitAux l [] = [] := by
  induction l with
  | nil => rfl
  | cons c rest ih =>
    have hc : c.isWhitespace = true := h c (by simp)
    simp [splitAux, hc, ih (fun d hd => h d (by simp [hd]))]

theorem splitAux_words :
    ∀ (l cur : List Char), (∀ c ∈ cur, c.isWhitespace = false) →
      ∀ w ∈ splitAux l cur, w ≠ [] ∧ ∀ c ∈ w, c.isWhitespace = false := by
  intro l
  induction l with
  | nil =>
    intro cur hcur w hw
    by_cases h : cur = []
    · simp [splitAux, h] at hw
    · simp [splitAux, h] at hw
      subst hw
      exact ⟨h, hcur⟩
  | cons c rest ih =>
    intro cur hcur w hw
    by_cases hc : c.isWhitespace = true
    · by_cases h : cur = []
      · simp [splitAux, hc, h] at hw
        exact ih [] (by simp) w hw
      · simp [splitAux, hc, h] at hw
        rcases hw with hw | hw
        · subst hw; exact ⟨h, hcur⟩
        · exact ih [] (by simp) w hw
    · have hc' : c.isWhitespace = false := by simpa using hc
      simp [splitAux, hc'] at hw
      refine ih (cur ++ [c]) ?_ w hw
      intro d hd
      rcases List.mem_append.mp hd with hd | hd
      · exact hcur d hd
      · simp at hd; subst hd; exact hc'

theorem pyWords_words (s : String) :
    ∀ w ∈ pyWords s, w.data ≠ [] ∧ ∀ c ∈ w.data, c.isWhitespace = false := by
  intro w hw
  unfold pyWords pyWordsChars at hw
  rcases List.mem_map.mp hw with ⟨cs, hcs, rfl⟩
  exact splitAux_words s.data [] (by simp) cs hcs

theorem joinSp_data_cons (w : String) (ws : List String) (hws : ws ≠ []) :
    (joinSp (w :: ws)).data = w.data ++ ' ' :: (joinSp ws).data := by
  cases ws with
  | nil => cases hws rfl
  | cons v vs =>
    show (w ++ " " ++ joinSp (v :: vs)).data = _
    rw [String.data_append, String.data_append]
    have hsp : (" " : String).data = [' '] := rfl
    rw [hsp]
    simp

theorem mk_data (w : String) : String.mk w.data = w := rfl

theorem pyWords_joinSp :
    ∀ (g : List String), g ≠ [] →
      (∀ w ∈ g, w.data ≠ [] ∧ ∀ c ∈ w.data, c.isWhitespace = false) →
      pyWords (joinSp g) = g := by
  intro g
  induction g with
  | nil => intro hg; cases hg rfl
  | cons w ws ih =>
    intro _ h
    obtain ⟨hne, hnw⟩ := h w (by simp)
    cases ws with
    | nil =>
      show pyWords (joinSp [w]) = [w]
      unfold pyWords pyWordsChars
      show (splitAux ((joinSp [w]).data) []).map String.mk = [w]
      have hj : (joinSp [w]).data = w.data := rfl
      rw [hj]
      have := splitAux_append_nonws w.data [] [] hnw
      simp only [List.append_nil, List.nil_append] at this
      rw [this]
      simp [splitAux, hne]
    | cons v vs =>
      have hvs : (v :: vs) ≠ [] := by simp
      show pyWords (joinSp (w :: v :: vs)) = w :: v :: vs
      unfold pyWords pyWordsChars
      rw [joinSp_data_cons w (v :: vs) hvs]
      rw [splitAux_append_nonws w.data _ [] hnw]
      simp only [List.nil_append]
      have hsp : splitAux (' ' :: (joinSp (v :: vs)).data) w.data =
          w.data :: splitAux ((joinSp (v :: vs)).data) [] := by
        simp [splitAux, hne]
      rw [hsp]
      have ihv := ih hvs (fun u hu => h u (by simp [hu]))
      unfold pyWords pyWordsChars at ihv
      simp only [List.map_cons, mk_data, ihv]

end MiniRAG

namespace MiniRAG

theorem cleanGroups_nil (W : Nat) : cleanGroups W [] = [] := by
  rw [cleanGroups.eq_def]
  simp

theorem cleanGroups_cons (W : Nat) (hW : W ≠ 0) (ws : List String) (h : ws ≠ []) :
    cleanGroups W ws = ws.take W :: cleanGroups W (ws.drop W) := by
  rw [cleanGroups.eq_def]
  rw [dif_neg (by push_neg; exact ⟨h, hW⟩)]

theorem chunkGroupsAux_eq (W : Nat) (hW : 0 < W) :
    ∀ (ws : List String) (n : Nat) (cur : List String), (cur = [] → n = W) →
      chunkGroupsAux W ws n cur =
        if cur ++ ws.take n = [] then []
        else (cur ++ ws.take n) :: cleanGroups W (ws.drop n) := by
  intro ws
  induction ws with
  | nil =>
    intro n cur hinv
    by_cases h : cur = [] <;>
      simp [chunkGroupsAux, h, cleanGroups_nil]
  | cons w ws ih =>
    intro n cur hinv
    cases n with
    | zero =>
      have hcur : cur ≠ [] := by
        intro hc
        have := hinv hc
        omega
      have hW0 : W ≠ 0 := by omega
      obtain ⟨m, hm⟩ : ∃ m, W = m + 1 := ⟨W - 1, by omega⟩
      have hIH := ih (W - 1) [w] (by simp)
      rw [if_neg (by simp)] at hIH
      show cur :: chunkGroupsAux W ws (W - 1) [w] =
        if cur ++ List.take 0 (w :: ws) = [] then []
        else (cur ++ List.take 0 (w :: ws)) :: cleanGroups W (List.drop 0 (w :: ws))
      rw [List.take_zero, List.drop_zero, List.append_nil, if_neg hcur]
      rw [hIH, cleanGroups_cons W hW0 (w :: ws) (by simp)]
      rw [hm]
      simp only [List.take_succ_cons, List.drop_succ_cons, Nat.add_sub_cancel,
        List.singleton_append]
    | succ n =>
      have hIH := ih n (cur ++ [w]) (by simp)
      rw [if_neg (by simp)] at hIH
      show chunkGroupsAux W ws n (cur ++ [w]) =
        if cur ++ List.take (n + 1) (w :: ws) = [] then []
        else (cur ++ List.take (n + 1) (w :: ws)) :: cleanGroups W (List.drop (n + 1) (w :: ws))
      rw [hIH, List.take_succ_cons, List.drop_succ_cons, if_neg (by simp)]
      simp

theorem chunkGroups_eq_clean (W : Nat) (hW : 0 < W) (ws : List String) :
    chunkGroups W ws = cleanGroups W ws := by
  unfold chunkGroups
  rw [chunkGroupsAux_eq W hW ws W [] (fun _ => rfl)]
  cases ws with
  | nil => simp [cleanGroups_nil]
  | cons w ws =>
    have hW0 : W ≠ 0 := by omega
    obtain ⟨m, hm⟩ : ∃ m, W = m + 1 := ⟨W - 1, by omega⟩
    rw [if_neg (by subst hm; simp [List.take_succ_cons])]
    rw [cleanGroups_cons W hW0 (w :: ws) (by simp)]
    simp

theorem cleanGroups_join (W : Nat) (hW : 0 < W) (ws : List String) :
    (cleanGroups W ws).join = ws := by
  induction ws using cleanGroups.induct W with
  | case1 ws h =>
    have hnil : ws = [] := by
      rcases h with h | h
      · exact h
      · exact absurd h (by omega)
    subst hnil
    rw [cleanGroups_nil]
    rfl
  | case2 ws h ih =>
    push_neg at h
    rw [cleanGroups_cons W h.2 ws h.1]
    simp only [List.join_cons, ih]
    exact List.take_append_drop W ws

theorem cleanGroups_length (W : Nat) (hW : 0 < W) (ws : List String) :
    (cleanGroups W ws).length = (ws.length + W - 1) / W := by
  induction ws using cleanGroups.induct W with
  | case1 ws h =>
    have hnil : ws = [] := by
      rcases h with h | h
      · exact h
      · exact absurd h (by omega)
    subst hnil
    rw [cleanGroups_nil]
    symm
    simp only [List.length_nil, List.length, Nat.zero_add]
    exact Nat.div_eq_of_lt (by omega)
  | case2 ws h ih =>
    push_neg at h
    have hpos : 0 < ws.length := List.length_pos.mpr h.1
    rw [cleanGroups_cons W h.2 ws h.1]
    simp only [List.length_cons, List.length_drop] at ih ⊢
    rw [ih]
    by_cases hle : ws.length ≤ W
    · have h1 : ws.length - W = 0 := by omega
      have h2 : (0 + W - 1) / W = 0 := Nat.div_eq_of_lt (by omega)
      have h3 : ws.length + W - 1 = (ws.length - 1) + W := by omega
      rw [h1, h2, h3, Nat.add_div_right _ hW, Nat.div_eq_of_lt (by omega)]
    · push_neg at hle
      have h4 : ws.length - W + W - 1 = (ws.length - 1 - W) + W := by omega
      have h5 : ws.length + W - 1 = ((ws.length - 1 - W) + W) + W := by omega
      rw [h4, h5, Nat.add_div_right _ hW, Nat.add_div_right _ hW, Nat.add_div_right _ hW]

theorem cleanGroups_mem_ne_nil (W : Nat) (hW : 0 < W) (ws : List String) :
    ∀ g ∈ cleanGroups W ws, g ≠ [] := by
  induction ws using cleanGroups.induct W with
  | case1 ws h =>
    have hnil : ws = [] := by
      rcases h with h | h
      · exact h
      · exact absurd h (by omega)
    subst hnil
    rw [cleanGroups_nil]
    simp
  | case2 ws h ih =>
    push_neg at h
    rw [cleanGroups_cons W h.2 ws h.1]
    intro g hg
    rcases List.mem_cons.mp hg with hg | hg
    · subst hg
      simp only [ne_eq, List.take_eq_nil_iff]
      push_neg
      exact ⟨h.2, h.1⟩
    · exact ih g hg

theorem cleanGroups_mem_subset (W : Nat) (hW : 0 < W) (ws : List String) :
    ∀ g ∈ cleanGroups W ws, ∀ w ∈ g, w ∈ ws := by
  induction ws using cleanGroups.induct W with
  | case1 ws h =>
    have hnil : ws = [] := by
      rcases h with h | h
      · exact h
      · exact absurd h (by omega)
    subst hnil
    rw [cleanGroups_nil]
    simp
  | case2 ws h ih =>
    push_neg at h
    rw [cleanGroups_cons W h.2 ws h.1]
    intro g hg w hw
    rcases List.mem_cons.mp hg with hg | hg
    · subst hg
      exact List.mem_of_mem_take hw
    · exact List.mem_of_mem_drop (ih g hg w hw)

theorem cleanGroups_dropLast_length (W : Nat) (hW : 0 < W) (ws : List String) :
    ∀ g ∈ (cleanGroups W ws).dropLast, g.length = W := by
  induction ws using cleanGroups.induct W with
  | case1 ws h =>
    have hnil : ws = [] := by
      rcases h with h | h
      · exact h
      · exact absurd h (by omega)
    subst hnil
    rw [cleanGroups_nil]
    simp
  | case2 ws h ih =>
    push_neg at h
    rw [cleanGroups_cons W h.2 ws h.1]
    intro g hg
    by_cases hdrop : ws.drop W = []
    · rw [hdrop, cleanGroups_nil] at hg
      simp at hg
    · have hcl : cleanGroups W (ws.drop W) ≠ [] := by
        rw [cleanGroups_cons W h.2 _ hdrop]
        simp
      rw [List.dropLast_cons_of_ne_nil hcl] at hg
      rcases List.mem_cons.mp hg with hg | hg
      · subst hg
        rw [List.length_take]
        have hlen : W ≤ ws.length := by
          by_contra hc
          push_neg at hc
          exact hdrop (List.drop_eq_nil_of_le (by omega))
        omega
      · exact ih g hg

end MiniRAG

namespace MiniRAG

theorem dropLast_map {α β : Type} (f : α → β) (l : List α) :
    (l.map f).dropLast = l.dropLast.map f := by
  induction l with
  | nil => rfl
  | cons a l ih =>
    cases l with
    | nil => rfl
    | cons b l => simp [List.dropLast_cons₂, ih]

theorem chunk_text_words_eq (text : String) (W : Nat) (hW : 1 ≤ W) :
    ∀ g ∈ cleanGroups W (pyWords text), pyWords (joinSp g) = g := by
  intro g hg
  refine pyWords_joinSp g (cleanGroups_mem_ne_nil W hW (pyWords text) g hg) ?_
  intro w hw
  exact pyWords_words text w (cleanGroups_mem_subset W hW (pyWords text) g hg w hw)

/-- C3: for an input of `N` whitespace-separated words and window size
`W ≥ 1`, `_chunk_text` returns `⌈N/W⌉` chunks, every chunk except the
last has exactly `W` words, the chunks' words concatenate back to the
original word sequence, and whitespace-only input yields the empty
sequence. -/
theorem chunk_text_spec (text : String) (W : Nat) (hW : 1 ≤ W) :
    (_chunk_text text W).length = ((pyWords text).length + W - 1) / W ∧
    (∀ ch ∈ (_chunk_text text W).dropLast, (pyWords ch).length = W) ∧
    ((_chunk_text text W).map pyWords).join = pyWords text ∧
    ((∀ c ∈ text.data, c.isWhitespace = true) → _chunk_text text W = []) := by
  have hWpos : 0 < W := hW
  unfold _chunk_text
  rw [chunkGroups_eq_clean W hWpos]
  refine ⟨?_, ?_, ?_, ?_⟩
  · rw [List.length_map]
    exact cleanGroups_length W hWpos (pyWords text)
  · intro ch hch
    rw [dropLast_map] at hch
    rcases List.mem_map.mp hch with ⟨g, hg, rfl⟩
    have hgmem : g ∈ cleanGroups W (pyWords text) :=
      (List.dropLast_sublist _).mem hg
    rw [chunk_text_words_eq text W hW g hgmem]
    exact cleanGroups_dropLast_length W hWpos (pyWords text) g hg
  · rw [List.map_map]
    have hmap : (cleanGroups W (pyWords text)).map (pyWords ∘ joinSp) =
        (cleanGroups W (pyWords text)).map id := by
      refine List.map_congr_left ?_
      intro g hg
      exact chunk_text_words_eq text W hW g hg
    rw [hmap, List.map_id]
    exact cleanGroups_join W hWpos (pyWords text)
  · intro hws
    have hempty : pyWords text = [] := by
      unfold pyWords pyWordsChars
      rw [splitAux_nil_of_ws text.data hws]
      rfl
    rw [hempty, cleanGroups_nil]
    rfl

/-- Concrete instance of `chunk_text_spec` at `"a b c"` with window 2. -/
theorem chunk_text_spec_witness :
    1 ≤ 2 ∧
    ((_chunk_text "a b c" 2).length = ((pyWords "a b c").length + 2 - 1) / 2 ∧
      (∀ ch ∈ (_chunk_text "a b c" 2).dropLast, (pyWords ch).length = 2) ∧
      ((_chunk_text "a b c" 2).map pyWords).join = pyWords "a b c" ∧
      ((∀ c ∈ ("a b c" : String).data, c.isWhitespace = true) → _chunk_text "a b c" 2 = [])) :=
  ⟨by decide, chunk_text_spec "a b c" 2 (by decide)⟩

end MiniRAG

namespace MiniRAG

/-! ### In-memory index alignment -/

/-- C9: after every load of the in-memory index the three parallel
structures are positionally aligned — as many chunk texts as source
labels as embedding rows — and a zero-row store yields a zero-row
embedding matrix whose column count is the embedding model's output
dimension; the structures initialised in `__init__` satisfy the same
invariant. -/
theorem load_from_db_aligned (docs : List ChunkRecord) (dim : Nat) :
    (_load_from_db docs dim).chunks.length = (_load_from_db docs dim).sources.length ∧
    (_load_from_db docs dim).sources.length = (_load_from_db docs dim).embeddings.length ∧
    (docs = [] →
      (_load_from_db docs dim).embeddings = [] ∧ (_load_from_db docs dim).embCols = dim) ∧
    (initMem dim).chunks.length = (initMem dim).sources.length ∧
    (initMem dim).sources.length = (initMem dim).embeddings.length ∧
    (initMem dim).embeddings = [] ∧ (initMem dim).embCols = dim := by
  cases docs with
  | nil => simp [_load_from_db, initMem]
  | cons r rs => simp [_load_from_db, initMem]

/-- Concrete instance of `load_from_db_aligned` on the empty store. -/
theorem load_from_db_aligned_witness :
    ([] : List ChunkRecord) = [] ∧
    (_load_from_db [] 3).embeddings = [] ∧ (_load_from_db [] 3).embCols = 3 :=
  ⟨rfl, (load_from_db_aligned [] 3).2.2.1 rfl⟩

/-! ### Query engine lemmas -/

theorem sumSq_nonneg (v : List ℚ) : 0 ≤ sumSq v := by
  unfold sumSq
  apply List.sum_nonneg
  intro x hx
  rcases List.mem_map.mp hx with ⟨y, _, rfl⟩
  exact mul_self_nonneg y

theorem length_argsortAsc (s : List ℝ) : (argsortAsc s).length = s.length := by
  unfold argsortAsc
  rw [(List.perm_insertionSort _ _).length_eq, List.length_range]

theorem argsortAsc_sorted (s : List ℝ) :
    (argsortAsc s).Pairwise (fun i j => s.getD i 0 ≤ s.getD j 0) := by
  haveI : IsTotal Nat (fun i j => s.getD i 0 ≤ s.getD j 0) := ⟨fun i j => le_total _ _⟩
  haveI : IsTrans Nat (fun i j => s.getD i 0 ≤ s.getD j 0) := ⟨fun i j k h1 h2 => le_trans h1 h2⟩
  exact List.sorted_insertionSort _ _

theorem pySliceFrom_sublist {α : Type} (l : List α) (i : ℤ) :
    (pySliceFrom l i).Sublist l := by
  unfold pySliceFrom
  by_cases h : i < 0 <;> simp [h, List.drop_sublist]

theorem topIdxs_sorted (s : List ℝ) (k : ℤ) :
    (topIdxs s k).Pairwise (fun i j => s.getD j 0 ≤ s.getD i 0) := by
  unfold topIdxs
  rw [List.pairwise_reverse]
  exact List.Pairwise.sublist (pySliceFrom_sublist _ _) (argsortAsc_sorted s)

theorem topIdxs_length_pos (s : List ℝ) (k : ℤ) (hk : 1 ≤ k) :
    (topIdxs s k).length = min k.toNat s.length := by
  unfold topIdxs pySliceFrom
  rw [if_pos (by omega : -k < 0)]
  rw [List.length_reverse, List.length_drop, length_argsortAsc]
  omega

theorem topIdxs_length_nonpos (s : List ℝ) (k : ℤ) (hk : k ≤ 0) :
    (topIdxs s k).length = s.length - (-k).toNat := by
  unfold topIdxs pySliceFrom
  rw [if_neg (by omega : ¬(-k < 0))]
  rw [List.length_reverse, List.length_drop, length_argsortAsc]

/-- The result list `query` assembles on the cache-miss path. -/
noncomputable def resultsOf (st : RagState) (qv : List ℚ) (k : ℤ) : List QResult :=
  (topIdxs (simsOf st.mem.embeddings qv) k).map (fun idx =>
    ⟨st.mem.chunks.getD idx "", st.mem.sources.getD idx "",
      (simsOf st.mem.embeddings qv).getD idx 0⟩)

theorem query_miss_eq (o : String → Option (List ℚ)) (st : RagState)
    (question : String) (k : ℤ) (qv : List ℚ)
    (hmiss : cacheLookup st.cache (_hash question) = none)
    (hne : ¬ st.mem.chunks.length = 0)
    (ho : o question = some qv) :
    query o st question k =
      some ⟨resultsOf st qv k,
        { st with cache := st.cache ++ [(_hash question, resultsOf st qv k)] }, 1⟩ := by
  simp only [query, resultsOf, hmiss, if_neg hne, ho]

theorem resultsOf_scores (st : RagState) (qv : List ℚ) (k : ℤ) :
    (resultsOf st qv k).map QResult.score =
      (topIdxs (simsOf st.mem.embeddings qv) k).map
        (fun idx => (simsOf st.mem.embeddings qv).getD idx 0) := by
  unfold resultsOf
  rw [List.map_map]
  rfl

/-- C2: on a cache miss with a non-empty index, for `k ≥ 1` and a
successful embedding, `query` returns exactly `min k n` results (where
`n` is the number of stored chunks) with non-increasing scores; in
particular it never errors when `k` exceeds the chunk count. -/
theorem query_topk_spec (o : String → Option (List ℚ)) (st : RagState)
    (question : String) (k : ℤ) (qv : List ℚ)
    (hmiss : cacheLookup st.cache (_hash question) = none)
    (hne : ¬ st.mem.chunks.length = 0)
    (hk : 1 ≤ k)
    (ho : o question = some qv)
    (halign : st.mem.embeddings.length = st.mem.chunks.length) :
    ∃ out, query o st question k = some out ∧
      out.results.length = min k.toNat st.mem.chunks.length ∧
      (out.results.map QResult.score).Pairwise (fun a b => b ≤ a) := by
  refine ⟨_, query_miss_eq o st question k qv hmiss hne ho, ?_, ?_⟩
  · show (resultsOf st qv k).length = _
    unfold resultsOf
    rw [List.length_map, topIdxs_length_pos _ _ hk]
    unfold simsOf
    rw [List.length_map, halign]
  · show ((resultsOf st qv k).map QResult.score).Pairwise _
    rw [resultsOf_scores]
    exact List.pairwise_map.mpr (topIdxs_sorted _ _)

/-- Concrete instance of `query_topk_spec`: one stored chunk, `k = 1`. -/
theorem query_topk_spec_witness :
    cacheLookup ([] : List (String × List QResult)) (_hash "q") = none ∧
    ¬ ((⟨["a"], ["f"], [[1]], 1⟩ : Mem)).chunks.length = 0 ∧
    (1 : ℤ) ≤ 1 ∧
    (∃ out,
      query (fun _ => some [1]) ⟨⟨[], []⟩, ⟨["a"], ["f"], [[1]], 1⟩, []⟩ "q" 1 = some out ∧
      out.results.length =
        min (1 : ℤ).toNat (⟨⟨[], []⟩, ⟨["a"], ["f"], [[1]], 1⟩, []⟩ : RagState).mem.chunks.length ∧
      (out.results.map QResult.score).Pairwise (fun a b => b ≤ a)) :=
  ⟨rfl, by decide, by decide,
    query_topk_spec (fun _ => some [1]) ⟨⟨[], []⟩, ⟨["a"], ["f"], [[1]], 1⟩, []⟩ "q" 1 [1]
      rfl (by decide) (by decide) rfl rfl⟩

end MiniRAG

namespace MiniRAG

/-- C6 counterexample: for the stored vector `(0)` (exactly zero) and the
query vector `(1)`, the cosine denominator is `0` — the epsilon guards
only the query-vector norm, so a zero stored vector still divides by
zero. -/
theorem denomR_zero_for_zero_stored : denomR [(0 : ℚ)] [(1 : ℚ)] = 0 := by
  unfold denomR normR sumSq
  norm_num

/-- C6 amended: the score is the dot product over
`‖e‖ * (‖q‖ + 1e-12)`, and the additive epsilon makes the division
well-defined whenever the STORED vector is nonzero — in particular when
the query vector is exactly zero; a zero stored vector is not
protected. -/
theorem simScore_well_defined (e q : List ℚ) (h : sumSq e ≠ 0) :
    denomR e q ≠ 0 ∧ simScore e q = ((dotQ e q : ℚ) : ℝ) / denomR e q := by
  constructor
  · unfold denomR
    have he : 0 < normR e := by
      unfold normR
      rw [Real.sqrt_pos]
      exact_mod_cast lt_of_le_of_ne (sumSq_nonneg e) (Ne.symm h)
    have hq : 0 < normR q + eps := by
      have h1 : 0 ≤ normR q := Real.sqrt_nonneg _
      have h2 : (0 : ℝ) < eps := by unfold eps; norm_num
      linarith
    exact ne_of_gt (mul_pos he hq)
  · rfl

/-- Concrete instance of `simScore_well_defined` with a ZERO query
vector: the epsilon keeps the denominator nonzero there. -/
theorem simScore_well_defined_witness :
    sumSq [(1 : ℚ)] ≠ 0 ∧
    (denomR [(1 : ℚ)] [(0 : ℚ)] ≠ 0 ∧
      simScore [(1 : ℚ)] [(0 : ℚ)] =
        ((dotQ [(1 : ℚ)] [(0 : ℚ)] : ℚ) : ℝ) / denomR [(1 : ℚ)] [(0 : ℚ)]) :=
  ⟨by norm_num [sumSq], simScore_well_defined [1] [0] (by norm_num [sumSq])⟩

/-- C7 counterexample: `query` with `k = 0` on a one-chunk index (cache
miss) is not rejected with a validation error — it silently returns a
result list, here of length 1 (all stored chunks). -/
theorem query_k_zero_not_rejected :
    (query (fun _ => some [1]) ⟨⟨[], []⟩, ⟨["a"], ["f"], [[1]], 1⟩, []⟩ "q" 0).map
      (fun out => out.results.length) = some 1 := rfl

/-- C7 amended: `query` performs no validation of `k` at all: for
`k ≤ 0`, on a cache miss with a non-empty index and a successful
embedding, it silently returns `n - (-k)` results (all `n` chunks when
`k = 0`), never a validation error. -/
theorem query_nonpositive_k (o : String → Option (List ℚ)) (st : RagState)
    (question : String) (k : ℤ) (qv : List ℚ)
    (hmiss : cacheLookup st.cache (_hash question) = none)
    (hne : ¬ st.mem.chunks.length = 0)
    (hk : k ≤ 0)
    (ho : o question = some qv)
    (halign : st.mem.embeddings.length = st.mem.chunks.length) :
    ∃ out, query o st question k = some out ∧
      out.results.length = st.mem.chunks.length - (-k).toNat := by
  refine ⟨_, query_miss_eq o st question k qv hmiss hne ho, ?_⟩
  show (resultsOf st qv k).length = _
  unfold resultsOf
  rw [List.length_map, topIdxs_length_nonpos _ _ hk]
  unfold simsOf
  rw [List.length_map, halign]

/-- Concrete instance of `query_nonpositive_k` at `k = 0`. -/
theorem query_nonpositive_k_witness :
    cacheLookup ([] : List (String × List QResult)) (_hash "q") = none ∧
    (0 : ℤ) ≤ 0 ∧
    (∃ out,
      query (fun _ => some [1]) ⟨⟨[], []⟩, ⟨["a"], ["f"], [[1]], 1⟩, []⟩ "q" 0 = some out ∧
      out.results.length =
        (⟨⟨[], []⟩, ⟨["a"], ["f"], [[1]], 1⟩, []⟩ : RagState).mem.chunks.length - ((-(0 : ℤ))).toNat) :=
  ⟨rfl, by decide,
    query_nonpositive_k (fun _ => some [1]) ⟨⟨[], []⟩, ⟨["a"], ["f"], [[1]], 1⟩, []⟩ "q" 0 [1]
      rfl (by decide) (by decide) rfl rfl⟩

theorem cacheLookup_append_self (m : List (String × List QResult)) (key : String)
    (r : List QResult) (h : cacheLookup m key = none) :
    cacheLookup (m ++ [(key, r)]) key = some r := by
  induction m with
  | nil => simp [cacheLookup]
  | cons p m ih =>
    unfold cacheLookup at h ⊢
    by_cases hp : p.1 = key
    · rw [if_pos hp] at h
      cases h
    · rw [if_neg hp] at h
      rw [List.cons_append]
      show (if p.1 = key then some p.2 else cacheLookup (m ++ [(key, r)]) key) = some r
      rw [if_neg hp]
      exact ih h

/-- C8: the query cache memoizes by exact query text: after any
successful call, an immediately repeated identical query returns exactly
the first call's results, leaves the state unchanged, and makes zero
embedding-oracle calls — for ANY oracle, i.e. the oracle is never
consulted. -/
theorem query_memoizes (o : String → Option (List ℚ)) (st : RagState)
    (question : String) (k : ℤ) (out : QueryOut)
    (h : query o st question k = some out) :
    ∀ o2 : String → Option (List ℚ),
      query o2 out.state question k = some ⟨out.results, out.state, 0⟩ := by
  intro o2
  simp only [query] at h
  cases hc : cacheLookup st.cache (_hash question) with
  | some r =>
    rw [hc] at h
    simp only [Option.some.injEq] at h
    subst h
    show query o2 st question k = _
    simp only [query, hc]
  | none =>
    rw [hc] at h
    by_cases hz : st.mem.chunks.length = 0
    · rw [if_pos hz] at h
      simp only [Option.some.injEq] at h
      subst h
      show query o2 st question k = _
      simp only [query, hc, if_pos hz]
    · rw [if_neg hz] at h
      cases ho : o question with
      | none =>
        rw [ho] at h
        cases h
      | some qv =>
        rw [ho] at h
        simp only [Option.some.injEq] at h
        subst h
        simp only [query]
        rw [cacheLookup_append_self _ _ _ hc]

/-- Concrete instance of `query_memoizes`: empty-index first call, second
call with an always-failing oracle still succeeds untouched. -/
theorem query_memoizes_witness :
    query (fun _ => some [1]) ⟨⟨[], []⟩, initMem 1, []⟩ "q" 2 =
      some ⟨[], ⟨⟨[], []⟩, initMem 1, []⟩, 0⟩ ∧
    query (fun _ => none) ⟨⟨[], []⟩, initMem 1, []⟩ "q" 2 =
      some ⟨[], ⟨⟨[], []⟩, initMem 1, []⟩, 0⟩ :=
  ⟨rfl, query_memoizes (fun _ => some [1]) ⟨⟨[], []⟩, initMem 1, []⟩ "q" 2
    ⟨[], ⟨⟨[], []⟩, initMem 1, []⟩, 0⟩ rfl (fun _ => none)⟩

/-- C10: `query` never modifies the documents table, the ledger, or the
in-memory structures; on a cache hit or an empty index it changes no
state at all, and on a cache miss with a non-empty index its only state
change is appending the single cache entry for the query's key. -/
theorem query_frame (o : String → Option (List ℚ)) (st : RagState)
    (question : String) (k : ℤ) (out : QueryOut)
    (h : query o st question k = some out) :
    out.state.store = st.store ∧ out.state.mem = st.mem ∧
    ((cacheLookup st.cache (_hash question)).isSome → out.state = st) ∧
    (st.mem.chunks.length = 0 → out.state = st) ∧
    (cacheLookup st.cache (_hash question) = none → ¬ st.mem.chunks.length = 0 →
      out.state.cache = st.cache ++ [(_hash question, out.results)]) := by
  simp only [query] at h
  cases hc : cacheLookup st.cache (_hash question) with
  | some r =>
    rw [hc] at h
    simp only [Option.some.injEq] at h
    subst h
    exact ⟨rfl, rfl, fun _ => rfl, fun _ => rfl, fun habs _ => Option.noConfusion habs⟩
  | none =>
    rw [hc] at h
    by_cases hz : st.mem.chunks.length = 0
    · rw [if_pos hz] at h
      simp only [Option.some.injEq] at h
      subst h
      refine ⟨rfl, rfl, fun _ => rfl, fun _ => rfl, fun _ hne => absurd hz hne⟩
    · rw [if_neg hz] at h
      cases ho : o question with
      | none =>
        rw [ho] at h
        cases h
      | some qv =>
        rw [ho] at h
        simp only [Option.some.injEq] at h
        subst h
        exact ⟨rfl, rfl, fun habs => by simp at habs, fun habs => absurd habs hz,
          fun _ _ => rfl⟩

/-- Concrete instance of `query_frame` on a cache hit. -/
theorem query_frame_witness :
    query (fun _ => some [1]) ⟨⟨[], []⟩, initMem 2, [("q", [])]⟩ "q" 3 =
      some ⟨[], ⟨⟨[], []⟩, initMem 2, [("q", [])]⟩, 0⟩ ∧
    (⟨[], ⟨⟨[], []⟩, initMem 2, [("q", [])]⟩, 0⟩ : QueryOut).state.store =
      (⟨⟨[], []⟩, initMem 2, [("q", [])]⟩ : RagState).store ∧
    ((cacheLookup ([("q", [])] : List (String × List QResult)) (_hash "q")).isSome →
      (⟨[], ⟨⟨[], []⟩, initMem 2, [("q", [])]⟩, 0⟩ : QueryOut).state =
        ⟨⟨[], []⟩, initMem 2, [("q", [])]⟩) :=
  ⟨rfl, (query_frame (fun _ => some [1]) ⟨⟨[], []⟩, initMem 2, [("q", [])]⟩ "q" 3
      ⟨[], ⟨⟨[], []⟩, initMem 2, [("q", [])]⟩, 0⟩ rfl).1,
    (query_frame (fun _ => some [1]) ⟨⟨[], []⟩, initMem 2, [("q", [])]⟩ "q" 3
      ⟨[], ⟨⟨[], []⟩, initMem 2, [("q", [])]⟩, 0⟩ rfl).2.2.1⟩

end MiniRAG

namespace MiniRAG

/-! ### Ledger and documents-table lemmas -/

theorem metaLookup_append (l1 l2 : List (String × String)) (f : String) :
    metaLookup (l1 ++ l2) f =
      match metaLookup l1 f with
      | some v => some v
      | none => metaLookup l2 f := by
  induction l1 with
  | nil => simp [metaLookup]
  | cons p m ih =>
    by_cases hp : p.1 = f <;> simp [metaLookup, hp, ih]

theorem metaLookup_cons (p : String × String) (m : List (String × String)) (g : String) :
    metaLookup (p :: m) g = if p.1 = g then some p.2 else metaLookup m g := rfl

theorem metaLookup_filter_ne_self (m : List (String × String)) (f : String) :
    metaLookup (m.filter (fun p => p.1 ≠ f)) f = none := by
  induction m with
  | nil => rfl
  | cons p m ih =>
    rw [List.filter_cons]
    by_cases hp : p.1 = f
    · rw [if_neg (by simp [hp])]
      exact ih
    · rw [if_pos (by simp [hp]), metaLookup_cons, if_neg hp]
      exact ih

theorem metaLookup_filter_ne_other (m : List (String × String)) (f g : String)
    (hg : g ≠ f) : metaLookup (m.filter (fun p => p.1 ≠ f)) g = metaLookup m g := by
  induction m with
  | nil => rfl
  | cons p m ih =>
    rw [List.filter_cons]
    by_cases hp : p.1 = f
    · rw [if_neg (by simp [hp]), metaLookup_cons,
        if_neg (by rw [hp]; exact fun h => hg h.symm)]
      exact ih
    · rw [if_pos (by simp [hp]), metaLookup_cons, metaLookup_cons]
      by_cases hpg : p.1 = g
      · rw [if_pos hpg, if_pos hpg]
      · rw [if_neg hpg, if_neg hpg]
        exact ih

theorem metaLookup_upsert_self (m : List (String × String)) (f v : String) :
    metaLookup (metaUpsert m f v) f = some v := by
  unfold metaUpsert
  rw [metaLookup_append, metaLookup_filter_ne_self]
  simp [metaLookup]

theorem metaLookup_upsert_other (m : List (String × String)) (f v g : String)
    (hg : g ≠ f) : metaLookup (metaUpsert m f v) g = metaLookup m g := by
  unfold metaUpsert
  rw [metaLookup_append, metaLookup_filter_ne_other m f g hg]
  cases h : metaLookup m g with
  | some w => rfl
  | none =>
    rw [metaLookup_cons, if_neg (fun hh => hg hh.symm)]
    rfl

theorem metaUpdate_cons (p : String × String) (m : List (String × String)) (f v : String) :
    metaUpdate (p :: m) f v =
      (if p.1 = f then (p.1, v) else p) :: metaUpdate m f v := rfl

theorem metaLookup_update_self (m : List (String × String)) (f v old : String)
    (h : metaLookup m f = some old) :
    metaLookup (metaUpdate m f v) f = some v := by
  induction m with
  | nil => cases h
  | cons p m ih =>
    rw [metaLookup_cons] at h
    rw [metaUpdate_cons]
    by_cases hp : p.1 = f
    · rw [if_pos hp, metaLookup_cons, if_pos hp]
    · rw [if_neg hp] at h
      rw [if_neg hp, metaLookup_cons, if_neg hp]
      exact ih h

theorem metaLookup_update_other (m : List (String × String)) (f v g : String)
    (hg : g ≠ f) : metaLookup (metaUpdate m f v) g = metaLookup m g := by
  induction m with
  | nil => rfl
  | cons p m ih =>
    rw [metaUpdate_cons, metaLookup_cons, metaLookup_cons]
    by_cases hp : p.1 = f
    · rw [if_pos hp]
      have hfg : ¬ (p.1, v).1 = g := by
        show ¬ p.1 = g
        rw [hp]
        exact fun h => hg h.symm
      have hpg : ¬ p.1 = g := by rw [hp]; exact fun h => hg h.symm
      rw [if_neg hfg, if_neg hpg]
      exact ih
    · rw [if_neg hp]
      by_cases hpg : p.1 = g
      · rw [if_pos hpg, if_pos hpg]
      · rw [if_neg hpg, if_neg hpg]
        exact ih

theorem keys_update (m : List (String × String)) (f v : String) :
    (metaUpdate m f v).map Prod.fst = m.map Prod.fst := by
  unfold metaUpdate
  rw [List.map_map]
  apply List.map_congr_left
  intro p _
  by_cases hp : p.1 = f <;> simp [hp]

theorem mem_keys_upsert (m : List (String × String)) (f v g : String)
    (h : g ∈ (metaUpsert m f v).map Prod.fst) : g ∈ m.map Prod.fst ∨ g = f := by
  unfold metaUpsert at h
  rw [List.map_append] at h
  rcases List.mem_append.mp h with h | h
  · rcases List.mem_map.mp h with ⟨p, hp, rfl⟩
    exact Or.inl (List.mem_map.mpr ⟨p, List.mem_of_mem_filter hp, rfl⟩)
  · simp at h
    exact Or.inr h

theorem metaLookup_mem_keys (m : List (String × String)) (g v : String)
    (h : metaLookup m g = some v) : g ∈ m.map Prod.fst := by
  induction m with
  | nil => cases h
  | cons p m ih =>
    unfold metaLookup at h
    by_cases hp : p.1 = g
    · simp [← hp]
    · rw [if_neg hp] at h
      simp [ih h]

theorem docsFor_deleteDocs_self (st : Store) (f : String) :
    docsFor (deleteDocs st f) f = [] := by
  unfold docsFor deleteDocs
  rw [List.filter_eq_nil_iff]
  intro r hr
  have := List.of_mem_filter hr
  simp at this ⊢
  exact this

theorem docsFor_deleteDocs_other (st : Store) (f g : String) (hg : g ≠ f) :
    docsFor (deleteDocs st f) g = docsFor st g := by
  unfold docsFor deleteDocs
  show List.filter _ (List.filter _ st.documents) = _
  rw [List.filter_filter]
  apply List.filter_congr
  intro r _
  by_cases hr : r.source = g
  · have : r.source ≠ f := by rw [hr]; exact hg
    simp [hr, this, hg]
  · simp [hr]

theorem docsFor_insertDoc_other (st : Store) (r : ChunkRecord) (g : String)
    (hg : r.source ≠ g) : docsFor (insertDoc st r) g = docsFor st g := by
  unfold docsFor insertDoc
  show List.filter _ (st.documents ++ [r]) = _
  rw [List.filter_append]
  simp [hg]

end MiniRAG

namespace MiniRAG

/-! ### Indexing-step lemmas -/

theorem _index_file_go_error (o : String → Option (List ℚ)) (fname : String) :
    ∀ (l : List String) (c : Conn) (d : Store),
      _index_file_go o fname l c = .error d → d = c.durable := by
  intro l
  induction l with
  | nil => intro c d h; cases h
  | cons ch rest ih =>
    intro c d h
    simp only [_index_file_go] at h
    by_cases ht : pyStrip ch = ""
    · rw [if_pos ht] at h
      exact ih c d h
    · rw [if_neg ht] at h
      cases ho : o (pyStrip ch) with
      | none =>
        rw [ho] at h
        cases h
        rfl
      | some emb =>
        rw [ho] at h
        exact ih (pendingInsert c ⟨fname, pyStrip ch, emb, _sha1 (pyStrip ch)⟩) d h

theorem _index_file_go_ok (o : String → Option (List ℚ)) (fname : String) :
    ∀ (l : List String) (c c' : Conn),
      _index_file_go o fname l c = .ok c' →
      c'.pending = c'.durable ∧
      c'.durable.filesMeta = c.pending.filesMeta ∧
      (∀ g, g ≠ fname → docsFor c'.durable g = docsFor c.pending g) := by
  intro l
  induction l with
  | nil =>
    intro c c' h
    cases h
    exact ⟨rfl, rfl, fun g _ => rfl⟩
  | cons ch rest ih =>
    intro c c' h
    simp only [_index_file_go] at h
    by_cases ht : pyStrip ch = ""
    · rw [if_pos ht] at h
      exact ih c c' h
    · rw [if_neg ht] at h
      cases ho : o (pyStrip ch) with
      | none =>
        rw [ho] at h
        cases h
      | some emb =>
        rw [ho] at h
        obtain ⟨h1, h2, h3⟩ :=
          ih (pendingInsert c ⟨fname, pyStrip ch, emb, _sha1 (pyStrip ch)⟩) c' h
        refine ⟨h1, h2, fun g hgf => ?_⟩
        rw [h3 g hgf]
        exact docsFor_insertDoc_other c.pending _ g (Ne.symm hgf)

theorem _index_file_error (o : String → Option (List ℚ)) (fname text : String)
    (c : Conn) (d : Store) (h : _index_file o fname text c = .error d) :
    d = c.durable :=
  _index_file_go_error o fname (_chunk_text text) c d h

theorem _index_file_ok (o : String → Option (List ℚ)) (fname text : String)
    (c c' : Conn) (h : _index_file o fname text c = .ok c') :
    c'.pending = c'.durable ∧
    c'.durable.filesMeta = c.pending.filesMeta ∧
    (∀ g, g ≠ fname → docsFor c'.durable g = docsFor c.pending g) :=
  _index_file_go_ok o fname (_chunk_text text) c c' h

/-! ### Per-file reconciliation-step lemmas -/

/-- On a successful step for file `fname`, the connection ends committed
and no other file's ledger entry or document rows change. -/
theorem processFile_frame (o : String → Option (List ℚ))
    (stored : List (String × String)) (fname content : String) (c c' : Conn)
    (hpd : c.pending = c.durable)
    (h : processFile o stored fname content c = .ok c') :
    c'.pending = c'.durable ∧
    (∀ g, g ≠ fname →
      metaLookup c'.durable.filesMeta g = metaLookup c.durable.filesMeta g ∧
      docsFor c'.durable g = docsFor c.durable g) := by
  simp only [processFile] at h
  cases hlook : metaLookup stored fname with
  | none =>
    rw [hlook] at h
    cases hif : _index_file o fname content c with
    | error d => rw [hif] at h; cases h
    | ok c1 =>
      rw [hif] at h
      simp only [Except.ok.injEq] at h
      subst h
      obtain ⟨h1, h2, h3⟩ := _index_file_ok o fname content c c1 hif
      refine ⟨rfl, fun g hgf => ⟨?_, ?_⟩⟩
      · show metaLookup (metaUpsert c1.pending.filesMeta fname (_sha1 content)) g = _
        rw [metaLookup_upsert_other _ _ _ g hgf, h1, h2, hpd]
      · show docsFor c1.pending g = docsFor c.durable g
        rw [h1, h3 g hgf, hpd]
  | some old =>
    simp only [hlook] at h
    by_cases hsha : old = _sha1 content
    · rw [if_pos hsha] at h
      simp only [Except.ok.injEq] at h
      subst h
      exact ⟨hpd, fun g _ => ⟨rfl, rfl⟩⟩
    · rw [if_neg hsha] at h
      cases hif : _index_file o fname content (commit (pendingDeleteDocs c fname)) with
      | error d => rw [hif] at h; cases h
      | ok c2 =>
        rw [hif] at h
        simp only [Except.ok.injEq] at h
        subst h
        obtain ⟨h1, h2, h3⟩ := _index_file_ok o fname content _ c2 hif
        refine ⟨rfl, fun g hgf => ⟨?_, ?_⟩⟩
        · show metaLookup (metaUpdate c2.pending.filesMeta fname (_sha1 content)) g = _
          rw [metaLookup_update_other _ _ _ g hgf, h1, h2]
          show metaLookup c.pending.filesMeta g = _
          rw [hpd]
        · show docsFor c2.pending g = docsFor c.durable g
          rw [h1, h3 g hgf]
          show docsFor (deleteDocs c.pending fname) g = docsFor c.durable g
          rw [hpd]
          exact docsFor_deleteDocs_other c.durable fname g hgf

end MiniRAG

namespace MiniRAG

/-- On a successful step for `fname`, its ledger digest ends up at the
digest of the processed content (the unchanged branch included). -/
theorem processFile_self (o : String → Option (List ℚ))
    (stored : List (String × String)) (fname content : String) (c c' : Conn)
    (hpd : c.pending = c.durable)
    (hinv : metaLookup c.pending.filesMeta fname = metaLookup stored fname)
    (h : processFile o stored fname content c = .ok c') :
    metaLookup c'.durable.filesMeta fname = some (_sha1 content) := by
  simp only [processFile] at h
  cases hlook : metaLookup stored fname with
  | none =>
    rw [hlook] at h
    cases hif : _index_file o fname content c with
    | error d => rw [hif] at h; cases h
    | ok c1 =>
      rw [hif] at h
      simp only [Except.ok.injEq] at h
      subst h
      show metaLookup (metaUpsert c1.pending.filesMeta fname (_sha1 content)) fname = _
      exact metaLookup_upsert_self _ _ _
  | some old =>
    simp only [hlook] at h
    by_cases hsha : old = _sha1 content
    · rw [if_pos hsha] at h
      simp only [Except.ok.injEq] at h
      subst h
      rw [← hpd, hinv, hlook, hsha]
    · rw [if_neg hsha] at h
      cases hif : _index_file o fname content (commit (pendingDeleteDocs c fname)) with
      | error d => rw [hif] at h; cases h
      | ok c2 =>
        rw [hif] at h
        simp only [Except.ok.injEq] at h
        subst h
        obtain ⟨h1, h2, _⟩ := _index_file_ok o fname content _ c2 hif
        show metaLookup (metaUpdate c2.pending.filesMeta fname (_sha1 content)) fname = _
        refine metaLookup_update_self _ _ _ old ?_
        rw [h1, h2]
        show metaLookup c.pending.filesMeta fname = some old
        rw [hinv, hlook]

/-- A successful step only ever adds `fname` itself as a new ledger
key. -/
theorem processFile_keys (o : String → Option (List ℚ))
    (stored : List (String × String)) (fname content : String) (c c' : Conn)
    (hpd : c.pending = c.durable)
    (h : processFile o stored fname content c = .ok c') :
    ∀ g ∈ c'.durable.filesMeta.map Prod.fst,
      g ∈ c.pending.filesMeta.map Prod.fst ∨ g = fname := by
  simp only [processFile] at h
  cases hlook : metaLookup stored fname with
  | none =>
    rw [hlook] at h
    cases hif : _index_file o fname content c with
    | error d => rw [hif] at h; cases h
    | ok c1 =>
      rw [hif] at h
      simp only [Except.ok.injEq] at h
      subst h
      intro g hg
      obtain ⟨_, h2, _⟩ := _index_file_ok o fname content c c1 hif
      have := mem_keys_upsert c1.pending.filesMeta fname (_sha1 content) g hg
      rcases this with hmem | heq
      · left
        have hmeta : c1.pending.filesMeta = c.pending.filesMeta := by
          have h1 := (_index_file_ok o fname content c c1 hif).1
          rw [h1, h2]
        rw [← hmeta]
        exact hmem
      · exact Or.inr heq
  | some old =>
    simp only [hlook] at h
    by_cases hsha : old = _sha1 content
    · rw [if_pos hsha] at h
      simp only [Except.ok.injEq] at h
      subst h
      intro g hg
      rw [← hpd] at hg
      exact Or.inl hg
    · rw [if_neg hsha] at h
      cases hif : _index_file o fname content (commit (pendingDeleteDocs c fname)) with
      | error d => rw [hif] at h; cases h
      | ok c2 =>
        rw [hif] at h
        simp only [Except.ok.injEq] at h
        subst h
        intro g hg
        show _ ∨ _
        rw [show (commit (pendingMetaUpdate c2 fname (_sha1 content))).durable.filesMeta =
            metaUpdate c2.pending.filesMeta fname (_sha1 content) from rfl] at hg
        rw [keys_update] at hg
        obtain ⟨h1, h2, _⟩ := _index_file_ok o fname content _ c2 hif
        left
        have hmeta : c2.pending.filesMeta = c.pending.filesMeta := by rw [h1, h2]; rfl
        rw [← hmeta]
        exact hg

/-- C1 amended, per-file failure behaviour: when the oracle fails
mid-file, no ledger digest is upserted for the failing file (its ledger
entry keeps its previous value); on the new-file path the durable store
is entirely unchanged; but on the changed-file path the file's previous
chunks are NOT intact: the pre-index delete is already committed, so the
durable store holds the old digest next to zero chunks for that file
(other files' rows untouched). -/
theorem processFile_failure_spec (o : String → Option (List ℚ))
    (stored : List (String × String)) (fname content : String) (c : Conn) (d : Store)
    (hpd : c.pending = c.durable)
    (h : processFile o stored fname content c = .error d) :
    metaLookup d.filesMeta fname = metaLookup c.durable.filesMeta fname ∧
    (metaLookup stored fname = none → d = c.durable) ∧
    (∀ old, metaLookup stored fname = some old → old ≠ _sha1 content →
      d.filesMeta = c.durable.filesMeta ∧ docsFor d fname = [] ∧
      ∀ g, g ≠ fname → docsFor d g = docsFor c.durable g) := by
  simp only [processFile] at h
  cases hlook : metaLookup stored fname with
  | none =>
    rw [hlook] at h
    cases hif : _index_file o fname content c with
    | error d' =>
      rw [hif] at h
      cases h
      have hd : d = c.durable := _index_file_error o fname content c d hif
      subst hd
      exact ⟨rfl, fun _ => rfl, fun old habs => Option.noConfusion habs⟩
    | ok c1 => rw [hif] at h; cases h
  | some old =>
    simp only [hlook] at h
    by_cases hsha : old = _sha1 content
    · rw [if_pos hsha] at h
      cases h
    · rw [if_neg hsha] at h
      cases hif : _index_file o fname content (commit (pendingDeleteDocs c fname)) with
      | error d' =>
        rw [hif] at h
        cases h
        have hd : d = (commit (pendingDeleteDocs c fname)).durable :=
          _index_file_error o fname content _ d hif
        have hd2 : d = deleteDocs c.durable fname := by rw [hd, ← hpd]; rfl
        subst hd2
        refine ⟨rfl, fun habs => Option.noConfusion habs,
          fun old' hlook' _ => ⟨rfl, ?_, fun g hgf => ?_⟩⟩
        · exact docsFor_deleteDocs_self c.durable fname
        · exact docsFor_deleteDocs_other c.durable fname g hgf
      | ok c2 => rw [hif] at h; cases h

/-! ### Removal-pass lemmas -/

theorem removeFile_self (st : Store) (f : String) :
    docsFor (removeFile st f) f = [] ∧
    metaLookup (removeFile st f).filesMeta f = none := by
  constructor
  · unfold docsFor removeFile
    rw [List.filter_eq_nil_iff]
    intro r hr
    have := List.of_mem_filter hr
    simp at this ⊢
    exact this
  · show metaLookup (metaDelete st.filesMeta f) f = none
    exact metaLookup_filter_ne_self st.filesMeta f

theorem removeFile_other (st : Store) (f g : String) (hg : g ≠ f) :
    docsFor (removeFile st f) g = docsFor st g ∧
    metaLookup (removeFile st f).filesMeta g = metaLookup st.filesMeta g := by
  constructor
  · show docsFor (deleteDocs st f) g = docsFor st g
    exact docsFor_deleteDocs_other st f g hg
  · show metaLookup (metaDelete st.filesMeta f) g = _
    exact metaLookup_filter_ne_other st.filesMeta f g hg

theorem removeAll_spec :
    ∀ (names : List String) (st : Store) (h : String),
      (h ∈ names →
        docsFor (removeAll names st) h = [] ∧
        metaLookup (removeAll names st).filesMeta h = none) ∧
      (h ∉ names →
        docsFor (removeAll names st) h = docsFor st h ∧
        metaLookup (removeAll names st).filesMeta h = metaLookup st.filesMeta h) := by
  intro names
  induction names with
  | nil =>
    intro st h
    exact ⟨fun habs => absurd habs (by simp), fun _ => ⟨rfl, rfl⟩⟩
  | cons n rest ih =>
    intro st h
    constructor
    · intro hmem
      by_cases hr : h ∈ rest
      · exact (ih (removeFile st n) h).1 hr
      · have hn : h = n := by
          rcases List.mem_cons.mp hmem with h1 | h1
          · exact h1
          · exact absurd h1 hr
        subst hn
        obtain ⟨hd, hm⟩ := (ih (removeFile st h) h).2 hr
        show docsFor (removeAll rest (removeFile st h)) h = [] ∧
          metaLookup (removeAll rest (removeFile st h)).filesMeta h = none
        rw [hd, hm]
        exact removeFile_self st h
    · intro hnot
      have hn : h ≠ n := fun hh => hnot (hh ▸ List.mem_cons_self n rest)
      have hr : h ∉ rest := fun hh => hnot (List.mem_cons_of_mem n hh)
      obtain ⟨hd, hm⟩ := (ih (removeFile st n) h).2 hr
      show docsFor (removeAll rest (removeFile st n)) h = docsFor st h ∧
        metaLookup (removeAll rest (removeFile st n)).filesMeta h = metaLookup st.filesMeta h
      rw [hd, hm]
      exact removeFile_other st n h hn

theorem removeAll_mem :
    ∀ (names : List String) (st : Store) (p : String × String),
      p ∈ (removeAll names st).filesMeta → p ∈ st.filesMeta ∧ p.1 ∉ names := by
  intro names
  induction names with
  | nil =>
    intro st p hp
    exact ⟨hp, by simp⟩
  | cons n rest ih =>
    intro st p hp
    obtain ⟨hmem, hnot⟩ := ih (removeFile st n) p hp
    have hmem2 : p ∈ st.filesMeta ∧ p.1 ≠ n := by
      have := List.mem_filter.mp hmem
      refine ⟨this.1, by simpa using this.2⟩
    refine ⟨hmem2.1, ?_⟩
    intro habs
    rcases List.mem_cons.mp habs with h1 | h1
    · exact hmem2.2 h1
    · exact hnot h1

end MiniRAG

namespace MiniRAG

/-! ### Reconciliation-loop lemmas -/

theorem loopFiles_ok_spec (o : String → Option (List ℚ)) (stored : List (String × String)) :
    ∀ (folder : List (String × String)) (c c' : Conn),
      (folder.map Prod.fst).Nodup →
      c.pending = c.durable →
      (∀ p ∈ folder, metaLookup c.pending.filesMeta p.1 = metaLookup stored p.1) →
      loopFiles o stored folder c = .ok c' →
      c'.pending = c'.durable ∧
      (∀ p ∈ folder, metaLookup c'.durable.filesMeta p.1 = some (_sha1 p.2)) ∧
      (∀ h, h ∉ folder.map Prod.fst →
        metaLookup c'.durable.filesMeta h = metaLookup c.durable.filesMeta h ∧
        docsFor c'.durable h = docsFor c.durable h) ∧
      (∀ g ∈ c'.durable.filesMeta.map Prod.fst,
        g ∈ c.durable.filesMeta.map Prod.fst ∨ g ∈ folder.map Prod.fst) := by
  intro folder
  induction folder with
  | nil =>
    intro c c' _ hpd _ h
    cases h
    exact ⟨hpd, by simp, fun h _ => ⟨rfl, rfl⟩, fun g hg => Or.inl hg⟩
  | cons p rest ih =>
    intro c c' hnd hpd hinv h
    obtain ⟨f, cont⟩ := p
    simp only [loopFiles] at h
    cases hpf : processFile o stored f cont c with
    | error d => rw [hpf] at h; cases h
    | ok c1 =>
      rw [hpf] at h
      have hframe := processFile_frame o stored f cont c c1 hpd hpf
      have hself := processFile_self o stored f cont c c1 hpd (hinv (f, cont) (by simp)) hpf
      have hkeys := processFile_keys o stored f cont c c1 hpd hpf
      have hnd' : (rest.map Prod.fst).Nodup := (List.nodup_cons.mp (by simpa using hnd)).2
      have hfnot : f ∉ rest.map Prod.fst := (List.nodup_cons.mp (by simpa using hnd)).1
      have hinv' : ∀ q ∈ rest, metaLookup c1.pending.filesMeta q.1 = metaLookup stored q.1 := by
        intro q hq
        have hqf : q.1 ≠ f := fun habs => hfnot (habs ▸ List.mem_map.mpr ⟨q, hq, rfl⟩)
        rw [hframe.1, (hframe.2 q.1 hqf).1, ← hpd]
        exact hinv q (List.mem_cons_of_mem _ hq)
      obtain ⟨ih1, ih2, ih3, ih4⟩ := ih c1 c' hnd' hframe.1 hinv' h
      refine ⟨ih1, ?_, ?_, ?_⟩
      · intro q hq
        rcases List.mem_cons.mp hq with hq | hq
        · subst hq
          show metaLookup c'.durable.filesMeta f = some (_sha1 cont)
          rw [(ih3 f hfnot).1]
          exact hself
        · exact ih2 q hq
      · intro hname hnot
        have hn1 : hname ≠ f := fun habs => hnot (by simp [habs])
        have hn2 : hname ∉ rest.map Prod.fst := fun habs => hnot (by simp [habs])
        obtain ⟨hm1, hd1⟩ := ih3 hname hn2
        obtain ⟨hm2, hd2⟩ := hframe.2 hname hn1
        exact ⟨hm1.trans hm2, hd1.trans hd2⟩
      · intro g hg
        rcases ih4 g hg with hg1 | hg1
        · rcases hkeys g hg1 with hg2 | hg2
          · rw [hpd] at hg2
            exact Or.inl hg2
          · right
            simp [hg2]
        · right
          simp [hg1]

theorem loopFiles_skip (o : String → Option (List ℚ)) (stored : List (String × String)) :
    ∀ (folder : List (String × String)) (c : Conn),
      (∀ p ∈ folder, metaLookup stored p.1 = some (_sha1 p.2)) →
      loopFiles o stored folder c = .ok c := by
  intro folder
  induction folder with
  | nil => intro c _; rfl
  | cons p rest ih =>
    intro c hall
    obtain ⟨f, cont⟩ := p
    have hp : metaLookup stored f = some (_sha1 cont) := hall (f, cont) (by simp)
    show loopFiles o stored ((f, cont) :: rest) c = .ok c
    simp only [loopFiles, processFile, hp, if_true]
    exact ih c (fun q hq => hall q (List.mem_cons_of_mem _ hq))

theorem loopFiles_frame_except (o : String → Option (List ℚ))
    (stored : List (String × String)) (f : String) :
    ∀ (folder : List (String × String)) (c c' : Conn),
      (∀ p ∈ folder, p.1 ≠ f → metaLookup stored p.1 = some (_sha1 p.2)) →
      c.pending = c.durable →
      loopFiles o stored folder c = .ok c' →
      c'.pending = c'.durable ∧
      ∀ g, g ≠ f →
        metaLookup c'.durable.filesMeta g = metaLookup c.durable.filesMeta g ∧
        docsFor c'.durable g = docsFor c.durable g := by
  intro folder
  induction folder with
  | nil =>
    intro c c' _ hpd h
    cases h
    exact ⟨hpd, fun g _ => ⟨rfl, rfl⟩⟩
  | cons p rest ih =>
    intro c c' hunch hpd h
    obtain ⟨g0, cont⟩ := p
    simp only [loopFiles] at h
    by_cases hg0 : g0 = f
    · cases hpf : processFile o stored g0 cont c with
      | error d => rw [hpf] at h; cases h
      | ok c1 =>
        rw [hpf] at h
        have hframe := processFile_frame o stored g0 cont c c1 hpd hpf
        obtain ⟨ih1, ih2⟩ :=
          ih c1 c' (fun q hq hqf => hunch q (List.mem_cons_of_mem _ hq) hqf) hframe.1 h
        refine ⟨ih1, fun g hgf => ?_⟩
        obtain ⟨hm1, hd1⟩ := ih2 g hgf
        obtain ⟨hm2, hd2⟩ := hframe.2 g (fun habs => hgf (by rw [habs, hg0]))
        exact ⟨hm1.trans hm2, hd1.trans hd2⟩
    · have hp := hunch (g0, cont) (by simp) hg0
      have hskip : processFile o stored g0 cont c = .ok c := by
        simp only [processFile, hp, if_true]
      rw [hskip] at h
      exact ih c c' (fun q hq hqf => hunch q (List.mem_cons_of_mem _ hq) hqf) hpd h

end MiniRAG

namespace MiniRAG

/-- After a successful reconciliation, every present file's ledger digest
is the digest of its current content, and every ledger key belongs to a
present file. -/
theorem sync_ok_spec (o : String → Option (List ℚ)) (folder : List (String × String))
    (st st1 : Store)
    (hnd : (folder.map Prod.fst).Nodup)
    (h : _sync_index_with_files o folder st = .ok st1) :
    (∀ p ∈ folder, metaLookup st1.filesMeta p.1 = some (_sha1 p.2)) ∧
    (∀ g ∈ st1.filesMeta.map Prod.fst, g ∈ folder.map Prod.fst) := by
  simp only [_sync_index_with_files] at h
  cases hl : loopFiles o st.filesMeta folder ⟨st, st⟩ with
  | error d => rw [hl] at h; cases h
  | ok c =>
    rw [hl] at h
    simp only [Except.ok.injEq] at h
    subst h
    obtain ⟨l1, l2, l3, l4⟩ := loopFiles_ok_spec o st.filesMeta folder ⟨st, st⟩ c hnd rfl
      (fun p _ => rfl) hl
    constructor
    · intro p hp
      have hpname : p.1 ∈ folder.map Prod.fst := List.mem_map.mpr ⟨p, hp, rfl⟩
      have hnotrem : p.1 ∉ (st.filesMeta.map Prod.fst).filter
          (fun g => g ∉ folder.map Prod.fst) := by
        intro habs
        have hdec := List.of_mem_filter habs
        exact of_decide_eq_true hdec hpname
      rw [((removeAll_spec _ c.durable p.1).2 hnotrem).2]
      exact l2 p hp
    · intro g hg
      rcases List.mem_map.mp hg with ⟨q, hq, rfl⟩
      obtain ⟨hq1, hq2⟩ := removeAll_mem _ c.durable q hq
      rcases l4 q.1 (List.mem_map.mpr ⟨q, hq1, rfl⟩) with hk | hk
      · by_contra hnot
        apply hq2
        apply List.mem_filter.mpr
        exact ⟨hk, by simpa using hnot⟩
      · exact hk

/-- C4: reconciliation is idempotent: a second run with unchanged folder
contents succeeds and leaves the store (documents rows and ledger)
exactly as the first run left it — no duplicate chunk records. -/
theorem sync_idempotent (o : String → Option (List ℚ)) (folder : List (String × String))
    (st st1 : Store)
    (hnd : (folder.map Prod.fst).Nodup)
    (h : _sync_index_with_files o folder st = .ok st1) :
    _sync_index_with_files o folder st1 = .ok st1 := by
  obtain ⟨hmeta, hkeys⟩ := sync_ok_spec o folder st st1 hnd h
  have hloop := loopFiles_skip o st1.filesMeta folder ⟨st1, st1⟩ hmeta
  simp only [_sync_index_with_files, hloop]
  have hrem : (st1.filesMeta.map Prod.fst).filter (fun g => g ∉ folder.map Prod.fst) = [] := by
    rw [List.filter_eq_nil_iff]
    intro g hg
    simp only [decide_eq_true_eq, not_not]
    exact hkeys g hg
  rw [hrem]
  rfl

/-- Concrete instance of `sync_idempotent` on a one-file folder. -/
theorem sync_idempotent_witness :
    (([("a.txt", "hello world")] : List (String × String)).map Prod.fst).Nodup ∧
    _sync_index_with_files (fun _ => some [1]) [("a.txt", "hello world")] ⟨[], []⟩ =
      .ok ⟨[⟨"a.txt", "hello world", [1], "hello world"⟩], [("a.txt", "hello world")]⟩ ∧
    _sync_index_with_files (fun _ => some [1]) [("a.txt", "hello world")]
        ⟨[⟨"a.txt", "hello world", [1], "hello world"⟩], [("a.txt", "hello world")]⟩ =
      .ok ⟨[⟨"a.txt", "hello world", [1], "hello world"⟩], [("a.txt", "hello world")]⟩ :=
  ⟨by decide, rfl,
    sync_idempotent (fun _ => some [1]) [("a.txt", "hello world")] ⟨[], []⟩
      ⟨[⟨"a.txt", "hello world", [1], "hello world"⟩], [("a.txt", "hello world")]⟩
      (by decide) rfl⟩

end MiniRAG

namespace MiniRAG

/-- C5: reconciliation has a per-file frame.  Modifying one tracked
file's content and re-running reconciliation changes only that file's
document rows and its ledger digest, leaving every other file's rows and
ledger entries untouched; deleting a tracked file and re-running removes
exactly that file's rows and ledger entry and nothing else. -/
theorem sync_per_file_frame (o : String → Option (List ℚ))
    (folder : List (String × String)) (st st1 : Store) (f : String)
    (hnd : (folder.map Prod.fst).Nodup)
    (h1 : _sync_index_with_files o folder st = .ok st1) :
    (∀ c2 st2,
      _sync_index_with_files o (folder.map (fun p => if p.1 = f then (p.1, c2) else p)) st1 =
        .ok st2 →
      (∀ g, g ≠ f → docsFor st2 g = docsFor st1 g ∧
        metaLookup st2.filesMeta g = metaLookup st1.filesMeta g) ∧
      (f ∈ folder.map Prod.fst → metaLookup st2.filesMeta f = some (_sha1 c2))) ∧
    (∀ st2,
      _sync_index_with_files o (folder.filter (fun p => p.1 ≠ f)) st1 = .ok st2 →
      (f ∈ folder.map Prod.fst → docsFor st2 f = [] ∧ metaLookup st2.filesMeta f = none) ∧
      (∀ g, g ≠ f → docsFor st2 g = docsFor st1 g ∧
        metaLookup st2.filesMeta g = metaLookup st1.filesMeta g)) := by
  obtain ⟨hmeta1, hkeys1⟩ := sync_ok_spec o folder st st1 hnd h1
  constructor
  · -- modification frame
    intro c2 st2 h2
    have hnames2 : (folder.map (fun p => if p.1 = f then (p.1, c2) else p)).map Prod.fst =
        folder.map Prod.fst := by
      rw [List.map_map]
      exact List.map_congr_left (fun p _ => by by_cases hp : p.1 = f <;> simp [hp])
    have h2' := h2
    simp only [_sync_index_with_files] at h2'
    cases hl2 : loopFiles o st1.filesMeta
        (folder.map (fun p => if p.1 = f then (p.1, c2) else p)) ⟨st1, st1⟩ with
    | error d => rw [hl2] at h2'; cases h2'
    | ok c =>
      rw [hl2] at h2'
      simp only [Except.ok.injEq] at h2'
      have hunch : ∀ p ∈ folder.map (fun p => if p.1 = f then (p.1, c2) else p),
          p.1 ≠ f → metaLookup st1.filesMeta p.1 = some (_sha1 p.2) := by
        intro p hp hpf
        rcases List.mem_map.mp hp with ⟨q, hq, hqe⟩
        by_cases hq1 : q.1 = f
        · rw [if_pos hq1] at hqe
          rw [← hqe] at hpf
          exact absurd hq1 hpf
        · rw [if_neg hq1] at hqe
          rw [← hqe]
          exact hmeta1 q hq
      obtain ⟨hcpd, hframe⟩ := loopFiles_frame_except o st1.filesMeta f _ ⟨st1, st1⟩ c
        hunch rfl hl2
      have hrem : (st1.filesMeta.map Prod.fst).filter
          (fun g => g ∉ (folder.map (fun p => if p.1 = f then (p.1, c2) else p)).map Prod.fst)
          = [] := by
        rw [List.filter_eq_nil_iff]
        intro g hg
        simp only [decide_eq_true_eq, not_not]
        rw [hnames2]
        exact hkeys1 g hg
      rw [hrem] at h2'
      have hst2 : st2 = c.durable := h2'.symm
      subst hst2
      constructor
      · intro g hgf
        obtain ⟨hm, hd⟩ := hframe g hgf
        exact ⟨hd, hm⟩
      · intro hf
        have hnd2 : ((folder.map (fun p => if p.1 = f then (p.1, c2) else p)).map
            Prod.fst).Nodup := by rw [hnames2]; exact hnd
        obtain ⟨hmeta2, _⟩ := sync_ok_spec o _ st1 _ hnd2 h2
        rcases List.mem_map.mp hf with ⟨q, hq, hqf⟩
        have hmem2 : (f, c2) ∈ folder.map (fun p => if p.1 = f then (p.1, c2) else p) := by
          refine List.mem_map.mpr ⟨q, hq, ?_⟩
          rw [if_pos hqf, hqf]
        have := hmeta2 (f, c2) hmem2
        exact this
  · -- deletion frame
    intro st2 h2
    have hsub : ∀ p ∈ folder.filter (fun p => p.1 ≠ f), p ∈ folder ∧ p.1 ≠ f := by
      intro p hp
      have h1' := List.mem_of_mem_filter hp
      have h2'' := List.of_mem_filter hp
      exact ⟨h1', of_decide_eq_true h2''⟩
    have hunch : ∀ p ∈ folder.filter (fun p => p.1 ≠ f),
        p.1 ≠ f → metaLookup st1.filesMeta p.1 = some (_sha1 p.2) := by
      intro p hp _
      exact hmeta1 p (hsub p hp).1
    have h2' := h2
    simp only [_sync_index_with_files] at h2'
    cases hl2 : loopFiles o st1.filesMeta (folder.filter (fun p => p.1 ≠ f)) ⟨st1, st1⟩ with
    | error d => rw [hl2] at h2'; cases h2'
    | ok c =>
      rw [hl2] at h2'
      simp only [Except.ok.injEq] at h2'
      obtain ⟨hcpd, hframe⟩ := loopFiles_frame_except o st1.filesMeta f _ ⟨st1, st1⟩ c
        hunch rfl hl2
      have hst2 : st2 = removeAll ((st1.filesMeta.map Prod.fst).filter
          (fun g => g ∉ (folder.filter (fun p => p.1 ≠ f)).map Prod.fst)) c.durable :=
        h2'.symm
      subst hst2
      have hmemnames : ∀ g, g ≠ f → g ∈ folder.map Prod.fst →
          g ∈ (folder.filter (fun p => p.1 ≠ f)).map Prod.fst := by
        intro g hgf hgmem
        rcases List.mem_map.mp hgmem with ⟨q, hq, rfl⟩
        refine List.mem_map.mpr ⟨q, ?_, rfl⟩
        refine List.mem_filter.mpr ⟨hq, ?_⟩
        simp [hgf]
      constructor
      · intro hf
        have hfkey : f ∈ st1.filesMeta.map Prod.fst := by
          rcases List.mem_map.mp hf with ⟨q, hq, rfl⟩
          exact metaLookup_mem_keys st1.filesMeta q.1 (_sha1 q.2) (hmeta1 q hq)
        have hfnot2 : f ∉ (folder.filter (fun p => p.1 ≠ f)).map Prod.fst := by
          intro habs
          rcases List.mem_map.mp habs with ⟨q, hq, hqf⟩
          exact (hsub q hq).2 hqf
        have hfrem : f ∈ (st1.filesMeta.map Prod.fst).filter
            (fun g => g ∉ (folder.filter (fun p => p.1 ≠ f)).map Prod.fst) :=
          List.mem_filter.mpr ⟨hfkey, by simp [hfnot2]⟩
        have hspec := (removeAll_spec _ c.durable f).1 hfrem
        refine ⟨hspec.1.trans ?_, hspec.2⟩
        rfl
      · intro g hgf
        have hgnot : g ∉ (st1.filesMeta.map Prod.fst).filter
            (fun g => g ∉ (folder.filter (fun p => p.1 ≠ f)).map Prod.fst) := by
          intro habs
          have hkey := List.mem_of_mem_filter habs
          have hpred : g ∉ (folder.filter (fun p => p.1 ≠ f)).map Prod.fst := by
            have hh := List.of_mem_filter habs
            exact of_decide_eq_true hh
          exact hpred (hmemnames g hgf (hkeys1 g hkey))
        obtain ⟨hd, hm⟩ := (removeAll_spec _ c.durable g).2 hgnot
        obtain ⟨hm2, hd2⟩ := hframe g hgf
        exact ⟨hd.trans hd2, hm.trans hm2⟩

end MiniRAG

namespace MiniRAG

/-- Concrete instance of `sync_per_file_frame`: two files, modify one,
then delete it. -/
theorem sync_per_file_frame_witness :
    (([("a.txt", "x"), ("b.txt", "y")] : List (String × String)).map Prod.fst).Nodup ∧
    _sync_index_with_files (fun _ => some [1]) [("a.txt", "x"), ("b.txt", "y")] ⟨[], []⟩ =
      .ok ⟨[⟨"a.txt", "x", [1], "x"⟩, ⟨"b.txt", "y", [1], "y"⟩],
        [("a.txt", "x"), ("b.txt", "y")]⟩ ∧
    (docsFor ⟨[⟨"b.txt", "y", [1], "y"⟩, ⟨"a.txt", "z", [1], "z"⟩],
        [("a.txt", "z"), ("b.txt", "y")]⟩ "b.txt" =
      docsFor ⟨[⟨"a.txt", "x", [1], "x"⟩, ⟨"b.txt", "y", [1], "y"⟩],
        [("a.txt", "x"), ("b.txt", "y")]⟩ "b.txt" ∧
     metaLookup ([("a.txt", "z"), ("b.txt", "y")] : List (String × String)) "b.txt" =
      metaLookup ([("a.txt", "x"), ("b.txt", "y")] : List (String × String)) "b.txt") ∧
    metaLookup ([("a.txt", "z"), ("b.txt", "y")] : List (String × String)) "a.txt" =
      some (_sha1 "z") ∧
    (docsFor ⟨[⟨"b.txt", "y", [1], "y"⟩], [("b.txt", "y")]⟩ "a.txt" = [] ∧
     metaLookup ([("b.txt", "y")] : List (String × String)) "a.txt" = none) := by
  have h := sync_per_file_frame (fun _ => some [1]) [("a.txt", "x"), ("b.txt", "y")]
    ⟨[], []⟩
    ⟨[⟨"a.txt", "x", [1], "x"⟩, ⟨"b.txt", "y", [1], "y"⟩], [("a.txt", "x"), ("b.txt", "y")]⟩
    "a.txt" (by decide) rfl
  have hmod := h.1 "z"
    ⟨[⟨"b.txt", "y", [1], "y"⟩, ⟨"a.txt", "z", [1], "z"⟩], [("a.txt", "z"), ("b.txt", "y")]⟩
    rfl
  have hdel := h.2 ⟨[⟨"b.txt", "y", [1], "y"⟩], [("b.txt", "y")]⟩ rfl
  refine ⟨by decide, rfl, ?_, ?_, ?_⟩
  · have := hmod.1 "b.txt" (by decide)
    exact ⟨this.1, this.2⟩
  · exact hmod.2 (by decide)
  · exact hdel.1 (by decide)

/-- C1 counterexample: with one tracked file whose content changed and an
embedding oracle that fails on it, reconciliation surfaces a durable
store in which the file's previous chunks are GONE (the delete before
re-indexing was already committed) while its ledger still holds the
stale previous digest — the file's chunk set and ledger entry were not
updated as one atomic unit, and the digest now disagrees with the stored
rows. -/
theorem sync_not_atomic_cex :
    _sync_index_with_files (fun _ => none) [("a.txt", "new")]
      ⟨[⟨"a.txt", "old", [1], "old"⟩], [("a.txt", "old")]⟩ =
      .error ⟨[], [("a.txt", "old")]⟩ ∧
    docsFor ⟨[], [("a.txt", "old")]⟩ "a.txt" = [] ∧
    metaLookup ([("a.txt", "old")] : List (String × String)) "a.txt" = some "old" ∧
    "old" ≠ _sha1 "new" :=
  ⟨rfl, rfl, rfl, by decide⟩

/-- Concrete instance of `processFile_failure_spec` on the changed-file
path. -/
theorem processFile_failure_spec_witness :
    processFile (fun _ => none) [("a.txt", "old")] "a.txt" "new"
      ⟨⟨[⟨"a.txt", "old", [1], "old"⟩], [("a.txt", "old")]⟩,
       ⟨[⟨"a.txt", "old", [1], "old"⟩], [("a.txt", "old")]⟩⟩ =
      .error ⟨[], [("a.txt", "old")]⟩ ∧
    metaLookup (⟨[], [("a.txt", "old")]⟩ : Store).filesMeta "a.txt" =
      metaLookup (⟨[⟨"a.txt", "old", [1], "old"⟩], [("a.txt", "old")]⟩ : Store).filesMeta
        "a.txt" ∧
    (⟨[], [("a.txt", "old")]⟩ : Store).filesMeta =
      (⟨[⟨"a.txt", "old", [1], "old"⟩], [("a.txt", "old")]⟩ : Store).filesMeta ∧
    docsFor ⟨[], [("a.txt", "old")]⟩ "a.txt" = [] := by
  have h := processFile_failure_spec (fun _ => none) [("a.txt", "old")] "a.txt" "new"
    ⟨⟨[⟨"a.txt", "old", [1], "old"⟩], [("a.txt", "old")]⟩,
     ⟨[⟨"a.txt", "old", [1], "old"⟩], [("a.txt", "old")]⟩⟩
    ⟨[], [("a.txt", "old")]⟩ rfl rfl
  exact ⟨rfl, h.1, (h.2.2 "old" rfl (by decide)).1, (h.2.2 "old" rfl (by decide)).2.1⟩

end MiniRAG
